import Mathlib

/-!
Verification of the cryptonium credential-hashing core: a shallow embedding of
the digest engine (`src/algorithms/sha256.ts`), the timing-safe comparator
(`src/utils/timing.ts`), the validation helpers (`src/utils/validation.ts`)
and the password hashing/verification services (`src/core/password.ts`),
together with theorems settling the specified properties.

A JavaScript string is modelled as its list of Unicode scalar values
(`List Char`); JavaScript numbers that the code keeps in unsigned 32-bit range
via `>>> 0` are modelled as `Nat` with explicit `% 2^32`.
-/

set_option maxRecDepth 100000

namespace Cryptonium

/-- Constant 2^32, the modulus of JavaScript unsigned 32-bit arithmetic (`>>> 0`). -/
def M32 : Nat := 4294967296

/-- Function `rightRotate` from `src/algorithms/sha256.ts`:
`((x >>> n) | (x << (32 - n))) >>> 0` (operands are always below 2^32). -/
def rightRotate (x n : Nat) : Nat := ((x >>> n) ||| ((x <<< (32 - n)) % M32)) % M32

/-- Function `rightShift` from `src/algorithms/sha256.ts`: `x >>> n`. -/
def rightShift (x n : Nat) : Nat := x >>> n

/-- One Unicode scalar value to UTF-8 bytes, as computed by `stringToBytes` in
`src/algorithms/sha256.ts`. The source iterates over UTF-16 code units and on a
surrogate pair reassembles the code point `c ≥ 0x10000` before emitting the
4-byte form, so on scalar values (which `Char` guarantees) the branches below
are exactly the source's branches. `Buffer.from(s, 'utf8')` in
`src/utils/timing.ts` produces the same bytes on scalar values. -/
def encodeCharUtf8 (c : Nat) : List Nat :=
  if c < 0x80 then [c]
  else if c < 0x800 then [0xc0 ||| (c >>> 6), 0x80 ||| (c &&& 0x3f)]
  else if c < 0x10000 then
    [0xe0 ||| (c >>> 12), 0x80 ||| ((c >>> 6) &&& 0x3f), 0x80 ||| (c &&& 0x3f)]
  else
    [0xf0 ||| (c >>> 18), 0x80 ||| ((c >>> 12) &&& 0x3f),
     0x80 ||| ((c >>> 6) &&& 0x3f), 0x80 ||| (c &&& 0x3f)]

/-- Function `stringToBytes`: the UTF-8 byte sequence of a string. -/
def stringToBytes (s : List Char) : List Nat :=
  s.flatMap (fun c => encodeCharUtf8 c.toNat)

/-- JavaScript `String.length`: the UTF-16 code-unit count (a scalar value at
or above `0x10000` is stored as a surrogate pair, two units). -/
def utf16Len (s : List Char) : Nat :=
  (s.map (fun c => if c.toNat < 0x10000 then 1 else 2)).sum

/-- One 32-bit word from at most four bytes: the inner loop
`word = (word << 8) + byte` of `stringToWords`, with the closing `>>> 0`. -/
def wordOfBytes (bs : List Nat) : Nat :=
  (bs.foldl (fun w b => (w <<< 8) + b) 0) % M32

/-- The grouping loop of `stringToWords`: four bytes per big-endian word; a
trailing group of 1–3 bytes lands in the LOW bytes of its word (the loop never
left-shifts past the missing bytes). -/
def bytesToWords : List Nat → List Nat
  | [] => []
  | b0 :: b1 :: b2 :: b3 :: rest => wordOfBytes [b0, b1, b2, b3] :: bytesToWords rest
  | bs => [wordOfBytes bs]

/-- Function `stringToWords` from `src/algorithms/sha256.ts`. -/
def stringToWords (s : List Char) : List Nat := bytesToWords (stringToBytes s)

/-- The round-constant table `K` (the source's 64 hex constants, written in
decimal). -/
def K : List Nat :=
  [1116352408, 1899447441, 3049323471, 3921009573, 961987163, 1508970993,
   2453635748, 2870763221, 3624381080, 310598401, 607225278, 1426881987,
   1925078388, 2162078206, 2614888103, 3248222580, 3835390401, 4022224774,
   264347078, 604807628, 770255983, 1249150122, 1555081692, 1996064986,
   2554220882, 2821834349, 2952996808, 3210313671, 3336571891, 3584528711,
   113926993, 338241895, 666307205, 773529912, 1294757372, 1396182291,
   1695183700, 1986661051, 2177026350, 2456956037, 2730485921, 2820302411,
   3259730800, 3345764771, 3516065817, 3600352804, 4094571909, 275423344,
   430227734, 506948616, 659060556, 883997877, 958139571, 1322822218,
   1537002063, 1747873779, 1955562222, 2024104815, 2227730452, 2361852424,
   2428436474, 2756734187, 3204031479, 3329325298]

/-- The initial hash state `H0` (the source's hex constants, in decimal). -/
def H0 : List Nat :=
  [1779033703, 3144134277, 1013904242, 2773480762,
   1359893119, 2600822924, 528734635, 1541459225]

/-- Number of zero words appended by `while ((msgWords.length % 16) !== 14)`:
the distance from `n % 16` up to 14, modulo 16. -/
def padZeroCount (n : Nat) : Nat := (30 - n % 16) % 16

/-- The padded word stream built by the preprocessing part of `sha256`: the
message words, then the single word `0x80000000`, then zero words up to
14 mod 16, then the 64-bit message bit length — computed from
`message.length * 8`, i.e. from the UTF-16 code-unit count — as two big-endian
words (the high word is `Math.floor(bitLength / 0x100000000)`, the low word is
`bitLength >>> 0`). -/
def paddedWords (message : List Char) : List Nat :=
  let msgWords := stringToWords message
  let bitLength := utf16Len message * 8
  let w1 := msgWords ++ [0x80000000]
  let w2 := w1 ++ List.replicate (padZeroCount w1.length) 0
  w2 ++ [bitLength / 0x100000000, bitLength % M32]

/-- Body of the message-schedule loop (`for t = 16; t < 64`): reads the words
15, 2, 16 and 7 positions back (`|| 0` reads a missing entry as 0) and stores
the new word at index `t`. -/
def scheduleStep (w : List Nat) (t : Nat) : List Nat :=
  let w15 := w.getD (t - 15) 0
  let w2 := w.getD (t - 2) 0
  let w16 := w.getD (t - 16) 0
  let w7 := w.getD (t - 7) 0
  let s0 := rightRotate w15 7 ^^^ rightRotate w15 18 ^^^ rightShift w15 3
  let s1 := rightRotate w2 17 ^^^ rightRotate w2 19 ^^^ rightShift w2 10
  w.set t ((w16 + s0 + w7 + s1) % M32)

/-- Runs `fuel` iterations of `scheduleStep` starting at index `t`. -/
def scheduleRun : List Nat → Nat → Nat → List Nat
  | w, _, 0 => w
  | w, t, fuel + 1 => scheduleRun (scheduleStep w t) (t + 1) fuel

/-- The eight working registers `a..h` (the source shadows `h` with `h0`). -/
structure Regs where
  a : Nat
  b : Nat
  c : Nat
  d : Nat
  e : Nat
  f : Nat
  g : Nat
  h0 : Nat

/-- One of the 64 compression rounds. `~e` applied to a value below 2^32 is
modelled as `0xffffffff ^^^ e`. -/
def roundStep (r : Regs) (kt wt : Nat) : Regs :=
  let S1 := rightRotate r.e 6 ^^^ rightRotate r.e 11 ^^^ rightRotate r.e 25
  let ch := (r.e &&& r.f) ^^^ ((0xffffffff ^^^ r.e) &&& r.g)
  let temp1 := (r.h0 + S1 + ch + kt + wt) % M32
  let S0 := rightRotate r.a 2 ^^^ rightRotate r.a 13 ^^^ rightRotate r.a 22
  let maj := (r.a &&& r.b) ^^^ (r.a &&& r.c) ^^^ (r.b &&& r.c)
  let temp2 := (S0 + maj) % M32
  { a := (temp1 + temp2) % M32, b := r.a, c := r.b, d := r.c,
    e := (r.d + temp1) % M32, f := r.e, g := r.f, h0 := r.g }

/-- The `for (t = 0; t < 64)` round loop (`w[t] || 0` and `K[t] || 0` are
`getD`). -/
def roundsRun (w : List Nat) : Regs → Nat → Nat → Regs
  | r, _, 0 => r
  | r, t, fuel + 1 => roundsRun w (roundStep r (K.getD t 0) (w.getD t 0)) (t + 1) fuel

/-- One 512-bit block: extend the 16 chunk words (`concat` of 48 zeros, then
overwritten by the schedule loop), run 64 rounds from the current state, and
add the registers back into the state modulo 2^32. -/
def addRegs (h : List Nat) (r : Regs) : List Nat :=
  [(h.getD 0 0 + r.a) % M32, (h.getD 1 0 + r.b) % M32, (h.getD 2 0 + r.c) % M32,
   (h.getD 3 0 + r.d) % M32, (h.getD 4 0 + r.e) % M32, (h.getD 5 0 + r.f) % M32,
   (h.getD 6 0 + r.g) % M32, (h.getD 7 0 + r.h0) % M32]

def processBlock (h : List Nat) (chunk : List Nat) : List Nat :=
  let w := scheduleRun (chunk ++ List.replicate 48 0) 16 48
  let r0 : Regs :=
    ⟨h.getD 0 0, h.getD 1 0, h.getD 2 0, h.getD 3 0,
     h.getD 4 0, h.getD 5 0, h.getD 6 0, h.getD 7 0⟩
  addRegs h (roundsRun w r0 0 64)

/-- The `for (i = 0; i < msgWords.length; i += 16)` block loop. `fuel` only
bounds the iteration count; one unit of fuel per word is always enough since
each iteration consumes 16 words. -/
def processBlocksF : Nat → List Nat → List Nat → List Nat
  | _, h, [] => h
  | 0, h, _ => h
  | fuel + 1, h, words => processBlocksF fuel (processBlock h (words.take 16)) (words.drop 16)

/-- Lowercase hexadecimal digit characters, as produced by `toString(16)`. -/
def hexDigitChar : Nat → Char
  | 0 => '0' | 1 => '1' | 2 => '2' | 3 => '3' | 4 => '4'
  | 5 => '5' | 6 => '6' | 7 => '7' | 8 => '8' | 9 => '9'
  | 10 => 'a' | 11 => 'b' | 12 => 'c' | 13 => 'd' | 14 => 'e' | 15 => 'f'
  | _ => '0'

/-- Digit-producing loop of JavaScript `x.toString(16)`; `fuel` bounds the
digit count (passing `n` itself is always enough). -/
def natToHexAux : Nat → Nat → List Char
  | 0, _ => []
  | fuel + 1, n => if n = 0 then [] else natToHexAux fuel (n / 16) ++ [hexDigitChar (n % 16)]

/-- JavaScript `x.toString(16)`: minimal lowercase hex digits, `"0"` for 0. -/
def natToHex (n : Nat) : List Char := if n = 0 then ['0'] else natToHexAux n n

/-- JavaScript `x.toString(16).padStart(8, "0")`. -/
def toHex8 (n : Nat) : List Char := List.replicate (8 - (natToHex n).length) '0' ++ natToHex n

/-- Function `sha256` from `src/algorithms/sha256.ts`, on the scalar-value view of a
JavaScript string. -/
def sha256 (message : List Char) : List Char :=
  let words := paddedWords message
  let h := processBlocksF words.length H0 words
  (h.map toHex8).flatten

/-- Function `timeSafeCompare` from `src/utils/timing.ts`: XOR of the byte lengths,
then an OR-accumulation of bytewise XORs over `max` positions (missing bytes
read as 0), equal iff the accumulator ends at 0. -/
def timeSafeCompare (a b : List Char) : Bool :=
  let aBytes := stringToBytes a
  let bBytes := stringToBytes b
  let maxLength := max aBytes.length bBytes.length
  let result := (List.range maxLength).foldl
    (fun acc i => acc ||| ((aBytes.getD i 0) ^^^ (bBytes.getD i 0)))
    (aBytes.length ^^^ bBytes.length)
  result == 0

/-- Function `constantTimeCompare` from `src/utils/timing.ts`: a pre-check on the JS
`String.length` (UTF-16 units) returning `false` early — after a dummy
self-comparison with no observable effect — else `timeSafeCompare`. -/
def constantTimeCompare (a b : List Char) : Bool :=
  if utf16Len a ≠ utf16Len b then false
  else timeSafeCompare a b

/-- Function `validatePassword` from `src/utils/validation.ts` as the predicate "does
not throw": nonempty, at most 1024 UTF-16 units, no NUL character. -/
def validPassword (p : List Char) : Bool :=
  !(utf16Len p == 0) && (utf16Len p ≤ 1024 : Bool) && !(p.contains '\x00')

/-- Lowercase hexadecimal digit test (the characters `toString(16)` emits),
written on code points: `0`–`9` are 48–57, `a`–`f` are 97–102. -/
def isHexDigitLower (c : Char) : Bool :=
  (48 ≤ c.toNat && c.toNat ≤ 57) || (97 ≤ c.toNat && c.toNat ≤ 102)

/-- The character class of `validateHash`'s regex `^[a-fA-F0-9]+$`, written on
code points: `A`–`F` are 65–70. -/
def isHexDigit (c : Char) : Bool :=
  (48 ≤ c.toNat && c.toNat ≤ 57) || (97 ≤ c.toNat && c.toNat ≤ 102)
    || (65 ≤ c.toNat && c.toNat ≤ 70)

/-- JavaScript `storedHash.split(':')` (split on a single-character separator). -/
def splitColonAux : List Char → List Char → List (List Char)
  | [], acc => [acc.reverse]
  | c :: rest, acc =>
    if c = ':' then acc.reverse :: splitColonAux rest []
    else splitColonAux rest (c :: acc)

def splitColon (s : List Char) : List (List Char) := splitColonAux s []

/-- JavaScript `parts.join(':')`. -/
def joinColon : List (List Char) → List Char
  | [] => []
  | [p] => p
  | p :: ps => p ++ ':' :: joinColon ps

/-- The metadata object recorded by `hashPassword`: algorithm name,
iterations, key length, creation timestamp. -/
structure Meta where
  algorithm : List Char
  iterations : Nat
  keyLength : Nat
  timestamp : Nat
deriving DecidableEq

/-- Digit loop of JavaScript decimal integer rendering (`hexDigitChar` agrees
with decimal digits below 10). `fuel` bounds the digit count. -/
def natToDecAux : Nat → Nat → List Char
  | 0, _ => []
  | fuel + 1, n => if n = 0 then [] else natToDecAux fuel (n / 10) ++ [hexDigitChar (n % 10)]

/-- A nonnegative integer as JavaScript/JSON decimal text. -/
def natToDec (n : Nat) : List Char := if n = 0 then ['0'] else natToDecAux n n

/-- Rendering `JSON.stringify` of the metadata object, fields in the order written in
`hashPassword` (`\x7b`/`\x7d` are the braces). -/
def stringifyMeta (m : Meta) : List Char :=
  "\x7b\"algorithm\":\"".data ++ m.algorithm
    ++ "\",\"iterations\":".data ++ natToDec m.iterations
    ++ ",\"keyLength\":".data ++ natToDec m.keyLength
    ++ ",\"timestamp\":".data ++ natToDec m.timestamp
    ++ "\x7d".data

/-- Strip an exact expected text from the front, or fail. -/
def stripExact : List Char → List Char → Option (List Char)
  | [], s => some s
  | _, [] => none
  | p :: ps, c :: cs => if p = c then stripExact ps cs else none

/-- Take the characters before the next `"`, returning them and the rest. -/
def takeUntilQuote : List Char → Option (List Char × List Char)
  | [] => none
  | c :: cs =>
    if c = '"' then some ([], cs)
    else
      match takeUntilQuote cs with
      | some (pre, post) => some (c :: pre, post)
      | none => none

/-- Decimal digit test on code points. -/
def isDigit10 (c : Char) : Bool := 48 ≤ c.toNat && c.toNat ≤ 57

/-- Greedily take leading decimal digits. -/
def spanDigits : List Char → List Char × List Char
  | [] => ([], [])
  | c :: cs =>
    if isDigit10 c then
      let (ds, rest) := spanDigits cs
      (c :: ds, rest)
    else ([], c :: cs)

/-- Numeric value of a digit string (`'0'` has code 48). -/
def decValue (ds : List Char) : Nat := ds.foldl (fun a c => a * 10 + (c.toNat - 48)) 0

def parseDecDigits (s : List Char) : Option (Nat × List Char) :=
  let (ds, rest) := spanDigits s
  if ds.isEmpty then none else some (decValue ds, rest)

/-- A model of `JSON.parse` restricted to the exact object shape
`JSON.stringify` produces in `hashPassword`; any other text counts as a parse
failure, which the source treats as absent metadata. -/
def parseMeta (s : List Char) : Option Meta := do
  let s ← stripExact "\x7b\"algorithm\":\"".data s
  let (alg, s) ← takeUntilQuote s
  let s ← stripExact ",\"iterations\":".data s
  let (its, s) ← parseDecDigits s
  let s ← stripExact ",\"keyLength\":".data s
  let (kl, s) ← parseDecDigits s
  let s ← stripExact ",\"timestamp\":".data s
  let (ts, s) ← parseDecDigits s
  let s ← stripExact "\x7d".data s
  if s.isEmpty then some ⟨alg, its, kl, ts⟩ else none

/-- Successful result of `validateStoredHashFormat`. -/
structure StoredParts where
  salt : List Char
  hash : List Char
  metadata : Option Meta
deriving DecidableEq

/-- Function `validateStoredHashFormat` from `src/utils/validation.ts`; `none` models a
thrown `ValidationError`. Field checks in source order: at least two parts,
salt and hash nonempty, `validateSalt` with default bounds 8–128,
`validateHash` (nonempty hex), and the optional rejoined-metadata parse whose
failure is swallowed. -/
def validateStoredHashFormat (storedHash : List Char) : Option StoredParts :=
  let parts := splitColon storedHash
  if parts.length < 2 then none
  else
    let salt := parts.getD 0 []
    let hash := parts.getD 1 []
    let metadataParts := parts.drop 2
    if salt.isEmpty || hash.isEmpty then none
    else if utf16Len salt < 8 ∨ 128 < utf16Len salt then none
    else if hash.isEmpty || !hash.all isHexDigit then none
    else
      some ⟨salt, hash,
        if metadataParts.isEmpty then none else parseMeta (joinColon metadataParts)⟩

/-- The `HashAlgorithm` TypeScript union. -/
inductive HashAlgorithm
  | sha256
  | sha512
  | pbkdf2
deriving DecidableEq

def algName : HashAlgorithm → List Char
  | .sha256 => "sha256".data
  | .sha512 => "sha512".data
  | .pbkdf2 => "pbkdf2".data

/-- Record `Partial<HashOptions>`; absent fields are `none` (`encoding` is never
consulted by the hashing/verification paths and is omitted). -/
structure HashOptionsP where
  algorithm : Option HashAlgorithm := none
  saltLength : Option Nat := none
  iterations : Option Nat := none
  keyLength : Option Nat := none
  pepper : Option (List Char) := none

/-- JavaScript `x || d` on an optional number: `undefined` and the falsy `0`
both fall back to the default. -/
def orDefault (x : Option Nat) (d : Nat) : Nat :=
  match x with
  | none => d
  | some n => if n = 0 then d else n

/-- Loop `for (let i = 1; i < iterations; i++) hash = sha256(hash)`: `k` further
applications of the digest to its own hex output. -/
def iterSha (h : List Char) : Nat → List Char
  | 0 => h
  | k + 1 => iterSha (sha256 h) k

/-- Contract of `generateSecureSalt n` under its default `'crypto'` strategy
(the one `hashPassword` uses): `crypto.randomBytes(n).toString('hex')` — and
its fallback — return `2*n` lowercase hex characters. The entropy source is
nondeterministic, so the services below take the produced salt as an explicit
argument constrained by this predicate. -/
def saltFromProvider (n : Nat) (salt : List Char) : Prop :=
  salt.length = 2 * n ∧ salt.all isHexDigitLower = true

/-- Function `hashPassword` from `src/core/password.ts`, with the salt provider's
output and the `Date.now()` reading injected. `none` models a thrown
`ValidationError` (from `validatePassword`, or from `validateKeyLength` inside
`generateSecureSalt`, which requires `8 ≤ saltLength ≤ 512`). Every algorithm
value takes the `case 'sha256': default:` branch of the switch. -/
def hashPassword (salt : List Char) (now : Nat) (password : List Char)
    (options : HashOptionsP) : Option (List Char) :=
  if !validPassword password then none
  else
    let algorithm := options.algorithm.getD .sha256
    let saltLength := orDefault options.saltLength 32
    let iterations := orDefault options.iterations 1
    let keyLength := orDefault options.keyLength 64
    if saltLength < 8 ∨ 512 < saltLength then none
    else
      let hash := iterSha (sha256 (password ++ salt)) (iterations - 1)
      some (salt ++ ':' :: hash ++ ':' ::
        stringifyMeta ⟨algName algorithm, iterations, keyLength, now⟩)

/-- Result object of `hashPasswordWithOptions` (its `metadata` record carries
only a timestamp/encoding/hasPepper note used by no claim; omitted). -/
structure PasswordHashResult where
  hash : List Char
  salt : List Char
  algorithm : HashAlgorithm
  iterations : Nat
  keyLength : Nat

/-- Function `hashPasswordWithOptions`: like `hashPassword` but with `iterations`
defaulting to 100000 and the optional pepper appended to `password + salt`
(an empty pepper is falsy in `pepper ? ... : ...`, but appending the empty
string is the identity, so plain concatenation is faithful). -/
def hashPasswordWithOptions (salt : List Char) (password : List Char)
    (options : HashOptionsP) : Option PasswordHashResult :=
  if !validPassword password then none
  else
    let algorithm := options.algorithm.getD .sha256
    let saltLength := orDefault options.saltLength 32
    let iterations := orDefault options.iterations 100000
    let keyLength := orDefault options.keyLength 64
    if saltLength < 8 ∨ 512 < saltLength then none
    else
      let input :=
        match options.pepper with
        | some pepper => password ++ salt ++ pepper
        | none => password ++ salt
      let hash := iterSha (sha256 input) (iterations - 1)
      some ⟨hash, salt, algorithm, iterations, keyLength⟩

/-- Function `verifyPassword` from `src/core/password.ts`: the `try` body, with every
failure mapped to `false` by the `catch`; iteration count from the stored
metadata (`metadata?.iterations || 1`). -/
def verifyPassword (password storedHash : List Char) : Bool :=
  if !validPassword password then false
  else
    match validateStoredHashFormat storedHash with
    | none => false
    | some parts =>
      let iterations := orDefault (parts.metadata.map Meta.iterations) 1
      let computedHash := iterSha (sha256 (password ++ parts.salt)) (iterations - 1)
      timeSafeCompare computedHash parts.hash

/-- Result of `verifyPasswordSecure` (the wall-clock `timeTaken` and the
error-message metadata are not modelled). -/
structure VerificationResult where
  isValid : Bool
  algorithm : List Char

/-- Function `verifyPasswordSecure`: same computation as `verifyPassword` — the
algorithm switch sends every stored algorithm name through the
`case 'sha256': default:` branch — reporting `isValid` and the algorithm
name (`metadata?.algorithm || 'sha256'`); the `catch` yields `isValid=false`. -/
def verifyPasswordSecure (password storedHash : List Char) : VerificationResult :=
  if !validPassword password then ⟨false, "sha256".data⟩
  else
    match validateStoredHashFormat storedHash with
    | none => ⟨false, "sha256".data⟩
    | some parts =>
      let algorithm :=
        match parts.metadata.map Meta.algorithm with
        | none => "sha256".data
        | some a => if a.isEmpty then "sha256".data else a
      let iterations := orDefault (parts.metadata.map Meta.iterations) 1
      let computedHash := iterSha (sha256 (password ++ parts.salt)) (iterations - 1)
      ⟨timeSafeCompare computedHash parts.hash, algorithm⟩

/-- Big-endian byte rendering of a 32-bit word, to compare the code's
word-level padding with byte-level standard padding. -/
def wordBytesBE (w : Nat) : List Nat :=
  [w / 16777216 % 256, w / 65536 % 256, w / 256 % 256, w % 256]

/-- Big-endian byte stream of a word stream. -/
def wordsToBytesBE (ws : List Nat) : List Nat := ws.flatMap wordBytesBE

/-- Modelled from the spec, digest-engine step 2: append the byte `0x80`
immediately after the message bytes, then zero bytes until the length in bits
is 448 mod 512 (56 mod 64 in bytes), then the original bit length — the UTF-8
byte count times 8 — as a 64-bit big-endian integer. -/
def specStandardPadding (message : List Char) : List Nat :=
  let bytes := stringToBytes message
  let bitLength := bytes.length * 8
  let zeros := (64 + 56 - (bytes.length + 1) % 64) % 64
  bytes ++ [0x80] ++ List.replicate zeros 0 ++
    [bitLength / 2 ^ 56 % 256, bitLength / 2 ^ 48 % 256, bitLength / 2 ^ 40 % 256,
     bitLength / 2 ^ 32 % 256, bitLength / 2 ^ 24 % 256, bitLength / 2 ^ 16 % 256,
     bitLength / 2 ^ 8 % 256, bitLength % 256]

/-- UTF-16 units contributed by one UTF-8 byte: a continuation byte
contributes 0, a 4-byte leader contributes 2 (a surrogate pair), any other
byte 1. -/
def utf16WeightOfByte (b : Nat) : Nat :=
  if 128 ≤ b ∧ b < 192 then 0 else if 240 ≤ b then 2 else 1

/-- Function `upgradePasswordHash`: re-verify against the old credential, then re-hash
with the new options. The outer `Option` models an uncaught exception from
`hashPassword`; `some none` is the source's `null`. -/
def upgradePasswordHash (salt : List Char) (now : Nat) (password oldStoredHash : List Char)
    (newOptions : HashOptionsP) : Option (Option (List Char)) :=
  if !(verifyPasswordSecure password oldStoredHash).isValid then some none
  else (hashPassword salt now password newOptions).map some

/-- Credential produced by `hashPassword` for the password `"pw"`, a
200-character provider salt and `saltLength := 100` (empty on failure). -/
def c2BadCredential : List Char :=
  match hashPassword (List.replicate 200 'a') 0 "pw".data { saltLength := some 100 } with
  | some cred => cred
  | none => []

/-- Credential produced by `hashPassword` for the password `"pw"` and the
16-character provider salt `"0123456789abcdef"` (empty on failure). -/
def c2WitnessCred : List Char :=
  match hashPassword "0123456789abcdef".data 7 "pw".data { saltLength := some 8 } with
  | some cred => cred
  | none => []

/-- Digest of the empty password concatenated with the salt `"saltsalt"`. -/
def c6Digest : List Char := sha256 "saltsalt".data

/-- Digest of `"pw" + "saltsalt"`. -/
def c6WitnessDigest : List Char := sha256 ("pw".data ++ "saltsalt".data)

/-- Shape invariant of the running hash state. -/
def stateOk (h : List Nat) : Prop := h.length = 8 ∧ ∀ x ∈ h, x < M32

/-- Shape of any value the digest engine can output. -/
def digestShape (l : List Char) : Prop :=
  l.length = 64 ∧ ∀ c ∈ l, isHexDigitLower c = true

/-!
## Supporting lemmas
-/

theorem natToHexAux_length_le :
    ∀ (fuel n k : Nat), n < 16 ^ k → (natToHexAux fuel n).length ≤ k := by
  intro fuel
  induction fuel with
  | zero => intro n k _; simp [natToHexAux]
  | succ fuel ih =>
    intro n k hk
    by_cases hn : n = 0
    · simp [natToHexAux, hn]
    · rcases k with _ | k
      · simp [pow_zero] at hk; omega
      · have h1 : n / 16 < 16 ^ k := by
          apply Nat.div_lt_of_lt_mul
          rw [pow_succ] at hk
          omega
        have h2 := ih (n / 16) k h1
        simp only [natToHexAux, hn, if_false, List.length_append, List.length_cons,
          List.length_nil]
        omega

theorem natToHex_length_le (n : Nat) (h : n < M32) : (natToHex n).length ≤ 8 := by
  unfold natToHex
  by_cases hn : n = 0
  · simp [hn]
  · simp only [hn, if_false]
    exact natToHexAux_length_le n n 8 (by rw [show (16 : Nat) ^ 8 = 4294967296 from rfl]; simpa [M32] using h)

theorem toHex8_length (n : Nat) (h : n < M32) : (toHex8 n).length = 8 := by
  unfold toHex8
  rw [List.length_append, List.length_replicate]
  have := natToHex_length_le n h
  omega

theorem hexDigitChar_lower : ∀ k, k < 16 → isHexDigitLower (hexDigitChar k) = true := by decide

theorem natToHexAux_lower :
    ∀ (fuel n : Nat), ∀ c ∈ natToHexAux fuel n, isHexDigitLower c = true := by
  intro fuel
  induction fuel with
  | zero => intro n c hc; simp [natToHexAux] at hc
  | succ fuel ih =>
    intro n c hc
    by_cases hn : n = 0
    · simp [natToHexAux, hn] at hc
    · simp only [natToHexAux, hn, if_false, List.mem_append, List.mem_cons,
        List.not_mem_nil, or_false] at hc
      rcases hc with hc | rfl
      · exact ih _ c hc
      · exact hexDigitChar_lower _ (Nat.mod_lt n (by norm_num))

theorem natToHex_lower (n : Nat) : ∀ c ∈ natToHex n, isHexDigitLower c = true := by
  unfold natToHex
  by_cases hn : n = 0
  · simp only [hn, if_true]
    intro c hc
    simp only [List.mem_cons, List.not_mem_nil, or_false] at hc
    subst hc
    decide
  · simp only [hn, if_false]
    exact natToHexAux_lower n n

theorem toHex8_lower (n : Nat) : ∀ c ∈ toHex8 n, isHexDigitLower c = true := by
  intro c hc
  unfold toHex8 at hc
  rcases List.mem_append.mp hc with hc | hc
  · have := List.eq_of_mem_replicate hc
    subst this
    decide
  · exact natToHex_lower n c hc

theorem M32_pos : 0 < M32 := by decide

theorem addRegs_stateOk (h : List Nat) (r : Regs) : stateOk (addRegs h r) := by
  constructor
  · rfl
  · intro x hx
    simp only [addRegs, List.mem_cons, List.not_mem_nil, or_false] at hx
    rcases hx with rfl | rfl | rfl | rfl | rfl | rfl | rfl | rfl <;>
      exact Nat.mod_lt _ M32_pos

theorem processBlock_stateOk (h chunk : List Nat) : stateOk (processBlock h chunk) :=
  addRegs_stateOk h _

theorem processBlocksF_stateOk :
    ∀ (fuel : Nat) (h words : List Nat), stateOk h → stateOk (processBlocksF fuel h words) := by
  intro fuel
  induction fuel with
  | zero => intro h words hh; cases words <;> simpa [processBlocksF]
  | succ fuel ih =>
    intro h words hh
    cases words with
    | nil => simpa [processBlocksF]
    | cons w ws =>
      simp only [processBlocksF]
      exact ih _ _ (processBlock_stateOk _ _)

theorem H0_stateOk : stateOk H0 := by
  constructor
  · rfl
  · decide

theorem flatten_map_toHex8_length (h : List Nat) (hb : ∀ x ∈ h, x < M32) :
    ((h.map toHex8).flatten).length = 8 * h.length := by
  induction h with
  | nil => simp
  | cons x xs ih =>
    simp only [List.map_cons, List.flatten_cons, List.length_append, List.length_cons]
    rw [toHex8_length x (hb x (by simp))]
    rw [ih (fun y hy => hb y (by simp [hy]))]
    ring

theorem sha256_length (m : List Char) : (sha256 m).length = 64 := by
  unfold sha256
  obtain ⟨hlen, hbound⟩ :=
    processBlocksF_stateOk (paddedWords m).length H0 (paddedWords m) H0_stateOk
  rw [flatten_map_toHex8_length _ hbound, hlen]

theorem sha256_all_lower (m : List Char) : ∀ c ∈ sha256 m, isHexDigitLower c = true := by
  intro c hc
  unfold sha256 at hc
  rcases List.mem_flatten.mp hc with ⟨l, hl, hcl⟩
  rcases List.mem_map.mp hl with ⟨x, _, rfl⟩
  exact toHex8_lower x c hcl

theorem hexLower_toNat (c : Char) (h : isHexDigitLower c = true) :
    (48 ≤ c.toNat ∧ c.toNat ≤ 57) ∨ (97 ≤ c.toNat ∧ c.toNat ≤ 102) := by
  simp only [isHexDigitLower, Bool.or_eq_true, Bool.and_eq_true, decide_eq_true_eq] at h
  exact h

theorem hexLower_ne_colon (c : Char) (h : isHexDigitLower c = true) : c ≠ ':' := by
  intro he
  subst he
  exact absurd h (by decide)

theorem hexLower_ne_quote (c : Char) (h : isHexDigitLower c = true) : c ≠ '"' := by
  intro he
  subst he
  exact absurd h (by decide)

theorem hexLower_isHex (c : Char) (h : isHexDigitLower c = true) : isHexDigit c = true := by
  have := hexLower_toNat c h
  simp only [isHexDigit, Bool.or_eq_true, Bool.and_eq_true, decide_eq_true_eq]
  omega

theorem hexLower_ascii (c : Char) (h : isHexDigitLower c = true) : c.toNat < 128 := by
  have := hexLower_toNat c h
  omega

theorem utf16Len_of_ascii (s : List Char) (h : ∀ c ∈ s, c.toNat < 65536) :
    utf16Len s = s.length := by
  induction s with
  | nil => rfl
  | cons c cs ih =>
    simp only [utf16Len, List.map_cons, List.sum_cons, List.length_cons]
    rw [if_pos (h c (by simp))]
    have := ih (fun d hd => h d (by simp [hd]))
    simp only [utf16Len] at this
    omega

theorem colon_not_mem_of_lower (s : List Char) (h : ∀ c ∈ s, isHexDigitLower c = true) :
    ':' ∉ s :=
  fun hmem => hexLower_ne_colon ':' (h ':' hmem) rfl

theorem sha256_digestShape (m : List Char) : digestShape (sha256 m) :=
  ⟨sha256_length m, sha256_all_lower m⟩

theorem iterSha_digestShape :
    ∀ (k : Nat) (h : List Char), digestShape h → digestShape (iterSha h k) := by
  intro k
  induction k with
  | zero => intro h hh; exact hh
  | succ k ih => intro h _; exact ih (sha256 h) (sha256_digestShape h)

theorem or_eq_zero_iff_both (a b : Nat) : a ||| b = 0 ↔ a = 0 ∧ b = 0 := by
  constructor
  · intro h
    have hbit : ∀ i, a.testBit i = false ∧ b.testBit i = false := by
      intro i
      have := congrArg (fun x => Nat.testBit x i) h
      simpa [Nat.testBit_or] using this
    constructor <;> apply Nat.eq_of_testBit_eq <;> intro i <;> simp [(hbit i).1, (hbit i).2]
  · rintro ⟨rfl, rfl⟩
    rfl

theorem foldl_or_eq_zero_iff (f : Nat → Nat) :
    ∀ (n init : Nat),
      ((List.range n).foldl (fun acc i => acc ||| f i) init = 0) ↔
        (init = 0 ∧ ∀ i < n, f i = 0) := by
  intro n
  induction n with
  | zero => intro init; simp
  | succ n ih =>
    intro init
    rw [List.range_succ, List.foldl_append]
    simp only [List.foldl_cons, List.foldl_nil]
    rw [or_eq_zero_iff_both, ih]
    constructor
    · rintro ⟨⟨h0, hin⟩, hn⟩
      refine ⟨h0, fun i hi => ?_⟩
      rcases Nat.lt_succ_iff_lt_or_eq.mp hi with h | rfl
      · exact hin i h
      · exact hn
    · rintro ⟨h0, hall⟩
      exact ⟨⟨h0, fun i hi => hall i (Nat.lt_succ_of_lt hi)⟩, hall n (Nat.lt_succ_self n)⟩

theorem eq_of_getD_eq (a b : List Nat) (hlen : a.length = b.length)
    (h : ∀ i, i < max a.length b.length → a.getD i 0 = b.getD i 0) : a = b := by
  apply List.ext_getElem hlen
  intro i h1 h2
  have hi := h i (by omega)
  rw [List.getD_eq_getElem?_getD, List.getD_eq_getElem?_getD,
    List.getElem?_eq_getElem h1, List.getElem?_eq_getElem h2] at hi
  simpa using hi

theorem timeSafeCompare_eq_true_iff (a b : List Char) :
    timeSafeCompare a b = true ↔ stringToBytes a = stringToBytes b := by
  unfold timeSafeCompare
  simp only [beq_iff_eq]
  rw [foldl_or_eq_zero_iff
    (fun i => (stringToBytes a).getD i 0 ^^^ (stringToBytes b).getD i 0)]
  rw [Nat.xor_eq_zero]
  constructor
  · rintro ⟨hlen, hall⟩
    exact eq_of_getD_eq _ _ hlen (fun i hi => Nat.xor_eq_zero.mp (hall i hi))
  · intro h
    rw [h]
    exact ⟨rfl, fun i _ => Nat.xor_eq_zero.mpr rfl⟩

theorem timeSafeCompare_self (l : List Char) : timeSafeCompare l l = true :=
  (timeSafeCompare_eq_true_iff l l).mpr rfl

theorem char_toNat_lt (c : Char) : c.toNat < 1114112 := by
  have hvt : c.toNat = c.val.toNat := rfl
  rcases c.valid with h | ⟨h1, h2⟩ <;> omega

theorem or128_range : ∀ y, y < 64 → 128 ≤ 128 ||| y ∧ 128 ||| y < 192 := by decide

theorem or192_range : ∀ y, y < 32 → 192 ≤ 192 ||| y ∧ 192 ||| y < 224 := by decide

theorem or224_range : ∀ y, y < 16 → 224 ≤ 224 ||| y ∧ 224 ||| y < 240 := by decide

theorem or240_range : ∀ y, y < 5 → 240 ≤ 240 ||| y ∧ 240 ||| y < 256 := by decide

theorem and63_lt (x : Nat) : x &&& 63 < 64 := by
  have := Nat.and_le_right (n := x) (m := 63)
  omega

theorem encodeChar_weight (c : Char) :
    ((encodeCharUtf8 c.toNat).map utf16WeightOfByte).sum
      = if c.toNat < 65536 then 1 else 2 := by
  have hv : c.toNat < 1114112 := char_toNat_lt c
  by_cases h1 : c.toNat < 128
  · simp only [encodeCharUtf8, if_pos h1, List.map_cons, List.map_nil, List.sum_cons,
      List.sum_nil]
    simp only [utf16WeightOfByte]
    split_ifs <;> omega
  · by_cases h2 : c.toNat < 2048
    · have hs : c.toNat >>> 6 < 32 := by
        rw [Nat.shiftRight_eq_div_pow, show (2 : Nat) ^ 6 = 64 from rfl]
        omega
      obtain ⟨hb1, hb2⟩ := or192_range _ hs
      obtain ⟨hc1, hc2⟩ := or128_range _ (and63_lt c.toNat)
      simp only [encodeCharUtf8, if_neg h1, if_pos h2, List.map_cons, List.map_nil,
        List.sum_cons, List.sum_nil]
      simp only [utf16WeightOfByte]
      split_ifs <;> omega
    · by_cases h3 : c.toNat < 65536
      · have hs : c.toNat >>> 12 < 16 := by
          rw [Nat.shiftRight_eq_div_pow, show (2 : Nat) ^ 12 = 4096 from rfl]
          omega
        obtain ⟨hb1, hb2⟩ := or224_range _ hs
        obtain ⟨hc1, hc2⟩ := or128_range _ (and63_lt (c.toNat >>> 6))
        obtain ⟨hd1, hd2⟩ := or128_range _ (and63_lt c.toNat)
        simp only [encodeCharUtf8, if_neg h1, if_neg h2, if_pos h3, List.map_cons,
          List.map_nil, List.sum_cons, List.sum_nil]
        simp only [utf16WeightOfByte]
        split_ifs <;> omega
      · have hs : c.toNat >>> 18 < 5 := by
          rw [Nat.shiftRight_eq_div_pow, show (2 : Nat) ^ 18 = 262144 from rfl]
          omega
        obtain ⟨hb1, hb2⟩ := or240_range _ hs
        obtain ⟨hc1, hc2⟩ := or128_range _ (and63_lt (c.toNat >>> 12))
        obtain ⟨hd1, hd2⟩ := or128_range _ (and63_lt (c.toNat >>> 6))
        obtain ⟨he1, he2⟩ := or128_range _ (and63_lt c.toNat)
        simp only [encodeCharUtf8, if_neg h1, if_neg h2, if_neg h3, List.map_cons,
          List.map_nil, List.sum_cons, List.sum_nil]
        simp only [utf16WeightOfByte]
        split_ifs <;> omega

theorem stringToBytes_weight (s : List Char) :
    ((stringToBytes s).map utf16WeightOfByte).sum = utf16Len s := by
  induction s with
  | nil => rfl
  | cons c cs ih =>
    simp only [stringToBytes] at ih ⊢
    simp only [List.flatMap_cons, List.map_append, List.sum_append]
    rw [encodeChar_weight, ih]
    simp only [utf16Len, List.map_cons, List.sum_cons]

theorem encodeChar_ascii (c : Char) (h : c.toNat < 128) :
    encodeCharUtf8 c.toNat = [c.toNat] := by
  simp only [encodeCharUtf8, if_pos h]

theorem encodeChar_head_of_nonascii (c : Char) (h : ¬ c.toNat < 128) :
    ∃ b rest, encodeCharUtf8 c.toNat = b :: rest ∧ 192 ≤ b := by
  by_cases h2 : c.toNat < 2048
  · have hs : c.toNat >>> 6 < 32 := by
      rw [Nat.shiftRight_eq_div_pow, show (2 : Nat) ^ 6 = 64 from rfl]
      omega
    have heq : encodeCharUtf8 c.toNat
        = (192 ||| (c.toNat >>> 6)) :: [128 ||| (c.toNat &&& 63)] := by
      simp only [encodeCharUtf8, if_neg h, if_pos h2]
    exact ⟨_, _, heq, (or192_range _ hs).1⟩
  · by_cases h3 : c.toNat < 65536
    · have hs : c.toNat >>> 12 < 16 := by
        rw [Nat.shiftRight_eq_div_pow, show (2 : Nat) ^ 12 = 4096 from rfl]
        omega
      have heq : encodeCharUtf8 c.toNat
          = (224 ||| (c.toNat >>> 12))
            :: [128 ||| ((c.toNat >>> 6) &&& 63), 128 ||| (c.toNat &&& 63)] := by
        simp only [encodeCharUtf8, if_neg h, if_neg h2, if_pos h3]
      exact ⟨_, _, heq, by have := (or224_range _ hs).1; omega⟩
    · have hv : c.toNat < 1114112 := char_toNat_lt c
      have hs : c.toNat >>> 18 < 5 := by
        rw [Nat.shiftRight_eq_div_pow, show (2 : Nat) ^ 18 = 262144 from rfl]
        omega
      have heq : encodeCharUtf8 c.toNat
          = (240 ||| (c.toNat >>> 18))
            :: [128 ||| ((c.toNat >>> 12) &&& 63), 128 ||| ((c.toNat >>> 6) &&& 63),
                128 ||| (c.toNat &&& 63)] := by
        simp only [encodeCharUtf8, if_neg h, if_neg h2, if_neg h3]
      exact ⟨_, _, heq, by have := (or240_range _ hs).1; omega⟩

theorem char_toNat_inj (c d : Char) (h : c.toNat = d.toNat) : c = d :=
  Char.ext (UInt32.toNat.inj h)

theorem utf8_inj_of_ascii :
    ∀ (s t : List Char), (∀ c ∈ s, c.toNat < 128) →
      stringToBytes s = stringToBytes t → s = t := by
  intro s
  induction s with
  | nil =>
    intro t _ h
    cases t with
    | nil => rfl
    | cons d ds =>
      exfalso
      simp only [stringToBytes, List.flatMap_nil, List.flatMap_cons] at h
      by_cases hd : d.toNat < 128
      · rw [encodeChar_ascii d hd] at h
        exact List.cons_ne_nil _ _ h.symm
      · obtain ⟨b, rest, hbr, _⟩ := encodeChar_head_of_nonascii d hd
        rw [hbr] at h
        exact List.cons_ne_nil _ _ h.symm
  | cons c cs ih =>
    intro t hs h
    have hc : c.toNat < 128 := hs c (by simp)
    cases t with
    | nil =>
      exfalso
      simp only [stringToBytes, List.flatMap_nil, List.flatMap_cons] at h
      rw [encodeChar_ascii c hc] at h
      exact List.cons_ne_nil _ _ h
    | cons d ds =>
      simp only [stringToBytes, List.flatMap_cons] at h
      rw [encodeChar_ascii c hc] at h
      by_cases hd : d.toNat < 128
      · rw [encodeChar_ascii d hd] at h
        simp only [List.cons_append, List.nil_append, List.cons.injEq] at h
        obtain ⟨hcd, htail⟩ := h
        have : c = d := char_toNat_inj c d hcd
        subst this
        have := ih ds (fun x hx => hs x (by simp [hx])) (by
          simp only [stringToBytes]
          exact htail)
        rw [this]
      · exfalso
        obtain ⟨b, rest, hbr, hb⟩ := encodeChar_head_of_nonascii d hd
        rw [hbr] at h
        simp only [List.cons_append, List.nil_append, List.cons.injEq] at h
        omega

theorem splitColonAux_append_colon :
    ∀ (a : List Char) (rest acc : List Char), ':' ∉ a →
      splitColonAux (a ++ ':' :: rest) acc = (acc.reverse ++ a) :: splitColonAux rest [] := by
  intro a
  induction a with
  | nil =>
    intro rest acc _
    simp [splitColonAux]
  | cons c cs ih =>
    intro rest acc hnc
    have hcne : c ≠ ':' := fun h => hnc (by simp [h])
    simp only [List.cons_append, splitColonAux, if_neg hcne, List.append_eq]
    rw [ih rest (c :: acc) (fun h => hnc (by simp [h]))]
    simp

theorem splitColonAux_no_colon :
    ∀ (a acc : List Char), ':' ∉ a → splitColonAux a acc = [acc.reverse ++ a] := by
  intro a
  induction a with
  | nil => intro acc _; simp [splitColonAux]
  | cons c cs ih =>
    intro acc hnc
    have hcne : c ≠ ':' := fun h => hnc (by simp [h])
    simp only [splitColonAux, if_neg hcne]
    rw [ih (c :: acc) (fun h => hnc (by simp [h]))]
    simp

theorem splitColon_append_colon (a rest : List Char) (h : ':' ∉ a) :
    splitColon (a ++ ':' :: rest) = a :: splitColon rest := by
  unfold splitColon
  rw [splitColonAux_append_colon a rest [] h]
  simp

theorem splitColon_no_colon (a : List Char) (h : ':' ∉ a) : splitColon a = [a] := by
  unfold splitColon
  rw [splitColonAux_no_colon a [] h]
  simp

theorem splitColonAux_ne_nil : ∀ (s acc : List Char), splitColonAux s acc ≠ [] := by
  intro s
  induction s with
  | nil => intro acc; simp [splitColonAux]
  | cons c cs ih =>
    intro acc
    by_cases hc : c = ':'
    · simp [splitColonAux, hc]
    · simp only [splitColonAux, if_neg hc]
      exact ih (c :: acc)

theorem splitColon_ne_nil (s : List Char) : splitColon s ≠ [] := splitColonAux_ne_nil s []

theorem joinColon_cons (p : List Char) (ps : List (List Char)) (h : ps ≠ []) :
    joinColon (p :: ps) = p ++ ':' :: joinColon ps := by
  cases ps with
  | nil => exact absurd rfl h
  | cons q qs => rfl

theorem joinColon_splitColonAux :
    ∀ (s acc : List Char), joinColon (splitColonAux s acc) = acc.reverse ++ s := by
  intro s
  induction s with
  | nil => intro acc; simp [splitColonAux, joinColon]
  | cons c cs ih =>
    intro acc
    by_cases hc : c = ':'
    · subst hc
      simp only [splitColonAux, if_true, eq_self_iff_true]
      rw [joinColon_cons _ _ (splitColonAux_ne_nil cs [])]
      rw [ih []]
      simp
    · simp only [splitColonAux, if_neg hc]
      rw [ih (c :: acc)]
      simp

theorem joinColon_splitColon (s : List Char) : joinColon (splitColon s) = s := by
  unfold splitColon
  rw [joinColon_splitColonAux s []]
  rfl

theorem stripExact_append (p s : List Char) : stripExact p (p ++ s) = some s := by
  induction p with
  | nil => simp [stripExact]
  | cons c cs ih =>
    simp only [List.cons_append, stripExact, eq_self_iff_true, if_true]
    exact ih

theorem takeUntilQuote_append (a rest : List Char) (h : '"' ∉ a) :
    takeUntilQuote (a ++ '"' :: rest) = some (a, rest) := by
  induction a with
  | nil => simp [takeUntilQuote]
  | cons c cs ih =>
    have hcne : c ≠ '"' := fun hh => h (by simp [hh])
    rw [List.cons_append]
    simp only [takeUntilQuote, if_neg hcne, ih (fun hh => h (by simp [hh]))]

theorem hexDigitChar_digit10 : ∀ k, k < 10 → isDigit10 (hexDigitChar k) = true := by decide

theorem hexDigitChar_toNat : ∀ k, k < 10 → (hexDigitChar k).toNat = 48 + k := by decide

theorem natToDecAux_digits :
    ∀ (fuel n : Nat), ∀ c ∈ natToDecAux fuel n, isDigit10 c = true := by
  intro fuel
  induction fuel with
  | zero => intro n c hc; simp [natToDecAux] at hc
  | succ fuel ih =>
    intro n c hc
    by_cases hn : n = 0
    · simp [natToDecAux, hn] at hc
    · simp only [natToDecAux, hn, if_false, List.mem_append, List.mem_cons,
        List.not_mem_nil, or_false] at hc
      rcases hc with hc | rfl
      · exact ih _ c hc
      · exact hexDigitChar_digit10 _ (Nat.mod_lt n (by norm_num))

theorem natToDec_digits (n : Nat) : ∀ c ∈ natToDec n, isDigit10 c = true := by
  unfold natToDec
  by_cases hn : n = 0
  · simp only [hn, if_true]
    intro c hc
    simp only [List.mem_cons, List.not_mem_nil, or_false] at hc
    subst hc
    decide
  · simp only [hn, if_false]
    exact natToDecAux_digits n n

theorem natToDec_ne_nil (n : Nat) : natToDec n ≠ [] := by
  unfold natToDec
  by_cases hn : n = 0
  · simp [hn]
  · simp only [hn, if_false]
    cases n with
    | zero => exact absurd rfl hn
    | succ m =>
      simp only [natToDecAux, if_neg hn]
      simp

theorem decValue_natToDecAux :
    ∀ (fuel n : Nat), n ≤ fuel → decValue (natToDecAux fuel n) = n := by
  intro fuel
  induction fuel with
  | zero =>
    intro n h
    simp only [natToDecAux, decValue, List.foldl_nil]
    omega
  | succ fuel ih =>
    intro n h
    by_cases hn : n = 0
    · simp [natToDecAux, hn, decValue]
    · simp only [natToDecAux, hn, if_false]
      have h1 : decValue (natToDecAux fuel (n / 10) ++ [hexDigitChar (n % 10)])
          = decValue (natToDecAux fuel (n / 10)) * 10 + ((hexDigitChar (n % 10)).toNat - 48) := by
        unfold decValue
        rw [List.foldl_append]
        simp
      rw [h1]
      rw [ih (n / 10) (by
        have := Nat.div_lt_self (Nat.pos_of_ne_zero hn) (by norm_num : 1 < 10)
        omega)]
      rw [hexDigitChar_toNat (n % 10) (Nat.mod_lt n (by norm_num))]
      omega

theorem decValue_natToDec (n : Nat) : decValue (natToDec n) = n := by
  unfold natToDec
  by_cases hn : n = 0
  · subst hn
    decide
  · simp only [hn, if_false]
    exact decValue_natToDecAux n n le_rfl

theorem spanDigits_split (ds : List Char) (c : Char) (rest : List Char)
    (hds : ∀ d ∈ ds, isDigit10 d = true) (hc : isDigit10 c = false) :
    spanDigits (ds ++ c :: rest) = (ds, c :: rest) := by
  induction ds with
  | nil =>
    simp only [List.nil_append, spanDigits]
    rw [if_neg (by simp [hc])]
  | cons d ds ih =>
    simp only [List.cons_append, spanDigits]
    rw [if_pos (by have := hds d (by simp); simp [this])]
    rw [List.append_eq, ih (fun x hx => hds x (by simp [hx]))]

theorem parseDecDigits_split (n : Nat) (c : Char) (rest : List Char)
    (hc : isDigit10 c = false) :
    parseDecDigits (natToDec n ++ c :: rest) = some (n, c :: rest) := by
  unfold parseDecDigits
  rw [spanDigits_split _ _ _ (natToDec_digits n) hc]
  simp [List.isEmpty_eq_false.mpr (natToDec_ne_nil n), decValue_natToDec]

theorem stripExact_cons (c : Char) (p s : List Char) :
    stripExact (c :: p) (c :: s) = stripExact p s := by
  simp [stripExact]

theorem stripExact_nil (s : List Char) : stripExact [] s = some s := by
  cases s <;> rfl

theorem parseMeta_stringifyMeta (alg : List Char) (its kl ts : Nat) (hq : '"' ∉ alg) :
    parseMeta (stringifyMeta ⟨alg, its, kl, ts⟩) = some ⟨alg, its, kl, ts⟩ := by
  have tq : ∀ rest, takeUntilQuote (alg ++ '"' :: rest) = some (alg, rest) :=
    fun rest => takeUntilQuote_append alg rest hq
  have pd1 : ∀ (n : Nat) (rest : List Char),
      parseDecDigits (natToDec n ++ ',' :: rest) = some (n, ',' :: rest) :=
    fun n rest => parseDecDigits_split n ',' rest (by decide)
  have pd2 : ∀ n : Nat, parseDecDigits (natToDec n ++ '\x7d' :: []) = some (n, '\x7d' :: []) :=
    fun n => parseDecDigits_split n '\x7d' [] (by decide)
  simp only [stringifyMeta, parseMeta, List.cons_append, List.nil_append, List.append_assoc,
    Option.bind_eq_bind, Option.some_bind, stripExact_cons, stripExact_nil, tq, pd1, pd2,
    List.isEmpty_nil, if_true]

theorem algName_no_quote (a : HashAlgorithm) : '"' ∉ algName a := by
  cases a <;> decide

theorem validateStored_three_fields (salt hashv metaStr : List Char)
    (hsc : ':' ∉ salt) (hhc : ':' ∉ hashv)
    (hsne : salt ≠ []) (hhne : hashv ≠ [])
    (hslen1 : 8 ≤ utf16Len salt) (hslen2 : utf16Len salt ≤ 128)
    (hhex : hashv.all isHexDigit = true) :
    validateStoredHashFormat (salt ++ ':' :: (hashv ++ ':' :: metaStr))
      = some ⟨salt, hashv, parseMeta metaStr⟩ := by
  simp only [validateStoredHashFormat]
  rw [splitColon_append_colon _ _ hsc, splitColon_append_colon _ _ hhc]
  rw [if_neg (by simp only [List.length_cons]; omega)]
  simp only [List.getD_cons_zero, List.getD_cons_succ, List.drop_succ_cons, List.drop_zero]
  rw [if_neg (by
    simp [List.isEmpty_eq_false.mpr hsne, List.isEmpty_eq_false.mpr hhne])]
  rw [if_neg (by omega)]
  rw [if_neg (by
    simp [List.isEmpty_eq_false.mpr hhne, hhex])]
  rw [if_neg (by simp [List.isEmpty_eq_false.mpr (splitColon_ne_nil metaStr)])]
  rw [joinColon_splitColon]

theorem validateStored_two_fields (salt hashv : List Char)
    (hsc : ':' ∉ salt) (hhc : ':' ∉ hashv)
    (hsne : salt ≠ []) (hhne : hashv ≠ [])
    (hslen1 : 8 ≤ utf16Len salt) (hslen2 : utf16Len salt ≤ 128)
    (hhex : hashv.all isHexDigit = true) :
    validateStoredHashFormat (salt ++ ':' :: hashv) = some ⟨salt, hashv, none⟩ := by
  simp only [validateStoredHashFormat]
  rw [splitColon_append_colon _ _ hsc, splitColon_no_colon _ hhc]
  rw [if_neg (by simp only [List.length_cons]; omega)]
  simp only [List.getD_cons_zero, List.getD_cons_succ, List.drop_succ_cons, List.drop_zero]
  rw [if_neg (by
    simp [List.isEmpty_eq_false.mpr hsne, List.isEmpty_eq_false.mpr hhne])]
  rw [if_neg (by omega)]
  rw [if_neg (by
    simp [List.isEmpty_eq_false.mpr hhne, hhex])]
  simp

theorem orDefault_some_orDefault (x : Option Nat) :
    orDefault (some (orDefault x 1)) 1 = orDefault x 1 := by
  rcases x with _ | n
  · rfl
  · simp only [orDefault]
    by_cases hn : n = 0
    · simp [hn]
    · simp [hn]

theorem if_bool_false {α : Sort u} (b : Bool) (hb : b = false) (x y : α) :
    (if b then x else y) = y := by
  rw [hb]
  rfl

theorem orDefault_pos (x : Option Nat) (d : Nat) (hd : 0 < d) : 0 < orDefault x d := by
  rcases x with _ | n
  · exact hd
  · simp only [orDefault]
    by_cases hn : n = 0
    · simp [hn]; omega
    · simp [hn]; omega

/-- Core hash→verify agreement: under a valid password, a provider-shaped salt
and an effective salt length of at most 64 (so that the hex salt has 16–128
characters), `hashPassword` succeeds with the expected credential text and
`verifyPassword` accepts it. -/
theorem hashPassword_roundtrip (salt password : List Char) (now : Nat) (o : HashOptionsP)
    (hp : validPassword password = true)
    (hsalt : saltFromProvider (orDefault o.saltLength 32) salt)
    (hn1 : 8 ≤ orDefault o.saltLength 32)
    (hn2 : orDefault o.saltLength 32 ≤ 64) :
    hashPassword salt now password o
        = some (salt ++ ':' :: (iterSha (sha256 (password ++ salt)) (orDefault o.iterations 1 - 1)
            ++ ':' :: stringifyMeta ⟨algName (o.algorithm.getD .sha256), orDefault o.iterations 1,
                orDefault o.keyLength 64, now⟩))
      ∧ verifyPassword password
          (salt ++ ':' :: (iterSha (sha256 (password ++ salt)) (orDefault o.iterations 1 - 1)
            ++ ':' :: stringifyMeta ⟨algName (o.algorithm.getD .sha256), orDefault o.iterations 1,
                orDefault o.keyLength 64, now⟩)) = true := by
  obtain ⟨hslen, hshex⟩ := hsalt
  have hsaltLower : ∀ c ∈ salt, isHexDigitLower c = true := fun c hc =>
    (List.all_eq_true.mp hshex) c hc
  have hsc : ':' ∉ salt := colon_not_mem_of_lower salt hsaltLower
  have hsne : salt ≠ [] := by
    intro h
    subst h
    simp only [List.length_nil] at hslen
    omega
  have hsutf : utf16Len salt = salt.length :=
    utf16Len_of_ascii salt (fun c hc => by have := hexLower_ascii c (hsaltLower c hc); omega)
  obtain ⟨hhlen, hhlower⟩ :=
    iterSha_digestShape (orDefault o.iterations 1 - 1) (sha256 (password ++ salt))
      (sha256_digestShape _)
  have hhc : ':' ∉ iterSha (sha256 (password ++ salt)) (orDefault o.iterations 1 - 1) :=
    colon_not_mem_of_lower _ hhlower
  have hhne : iterSha (sha256 (password ++ salt)) (orDefault o.iterations 1 - 1) ≠ [] := by
    intro h
    rw [h] at hhlen
    simp at hhlen
  have hhex : (iterSha (sha256 (password ++ salt)) (orDefault o.iterations 1 - 1)).all
      isHexDigit = true := by
    rw [List.all_eq_true]
    intro c hc
    exact hexLower_isHex c (hhlower c hc)
  have hdecode := validateStored_three_fields salt
    (iterSha (sha256 (password ++ salt)) (orDefault o.iterations 1 - 1))
    (stringifyMeta ⟨algName (o.algorithm.getD .sha256), orDefault o.iterations 1,
      orDefault o.keyLength 64, now⟩)
    hsc hhc hsne hhne (by omega) (by omega) hhex
  rw [parseMeta_stringifyMeta _ _ _ _ (algName_no_quote _)] at hdecode
  constructor
  · simp only [hashPassword,
      if_bool_false (!validPassword password) (by rw [hp]; rfl)]
    rw [if_neg (by omega)]
    simp [List.cons_append, List.append_assoc]
  · simp only [verifyPassword,
      if_bool_false (!validPassword password) (by rw [hp]; rfl), hdecode]
    simp only [Option.map_some']
    rw [orDefault_some_orDefault]
    exact timeSafeCompare_self _

theorem verifySecure_isValid (password storedHash : List Char) :
    (verifyPasswordSecure password storedHash).isValid = verifyPassword password storedHash := by
  unfold verifyPasswordSecure verifyPassword
  by_cases hp : validPassword password
  · simp only [hp, Bool.not_true, Bool.false_eq_true, if_false]
    cases validateStoredHashFormat storedHash with
    | none => rfl
    | some parts => rfl
  · simp only [Bool.not_eq_true] at hp
    simp [hp]

theorem hex_ne_colon (c : Char) (h : isHexDigit c = true) : c ≠ ':' := by
  intro he
  subst he
  exact absurd h (by decide)

theorem hashPasswordWithOptions_eq (salt password : List Char) (o : HashOptionsP)
    (hp : validPassword password = true)
    (hn1 : 8 ≤ orDefault o.saltLength 32)
    (hn2 : orDefault o.saltLength 32 ≤ 512) :
    hashPasswordWithOptions salt password o
      = some ⟨iterSha (sha256 (match o.pepper with
            | some pepper => password ++ salt ++ pepper
            | none => password ++ salt)) (orDefault o.iterations 100000 - 1),
          salt, o.algorithm.getD .sha256, orDefault o.iterations 100000,
          orDefault o.keyLength 64⟩ := by
  simp only [hashPasswordWithOptions,
    if_bool_false (!validPassword password) (by rw [hp]; rfl)]
  rw [if_neg (by omega)]

/-!
## Claims
-/

/-- C1: contrary to the specified contract, the digest engine does not
reproduce the published SHA-256 test vectors: it matches the reference value
on the empty string but returns a different 64-character value on "abc"
(because the padding pushes `0x80000000` as a whole word, misplacing the 0x80
marker whenever the message byte length is not a multiple of four). -/
theorem c1_sha256_vectors :
    sha256 "".data = "e3b0c44298fc1c149afbf4c8996fb92427ae41e4649b934ca495991b7852b855".data
      ∧ sha256 "abc".data
          = "949ecadfb23604ff452cb848352e8ccd81971b989624825831dcf503aef343a0".data
      ∧ sha256 "abc".data
          ≠ "ba7816bf8f01cfea414140de5dae2223b00361a396177a9cb410ff61f20015ad".data :=
  ⟨by decide, by decide, by decide⟩

/-- C2 counterexample: with `saltLength := 100` the salt provider returns a
200-character hex salt; `hashPassword` succeeds, yet `verifyPassword` rejects
the freshly produced credential because `validateSalt` only accepts salts of
8–128 characters. -/
theorem c2_counterexample :
    saltFromProvider 100 (List.replicate 200 'a')
      ∧ hashPassword (List.replicate 200 'a') 0 "pw".data { saltLength := some 100 }
          = some c2BadCredential
      ∧ verifyPassword "pw".data c2BadCredential = false :=
  ⟨⟨by decide, by decide⟩, by decide, by decide⟩

/-- C2 (amended): for every password accepted by `validatePassword`, every
options record whose effective salt length lies between 8 and 64 (so that the
2·saltLength-character hex salt fits `validateSalt`'s 8–128 character bound),
and every salt the provider can return for it, a credential freshly produced
by `hashPassword` verifies against the same password. -/
theorem c2_hash_verify_agreement (password salt : List Char) (now : Nat) (o : HashOptionsP)
    (hp : validPassword password = true)
    (hsalt : saltFromProvider (orDefault o.saltLength 32) salt)
    (hn1 : 8 ≤ orDefault o.saltLength 32) (hn2 : orDefault o.saltLength 32 ≤ 64)
    (cred : List Char) (hc : hashPassword salt now password o = some cred) :
    verifyPassword password cred = true := by
  obtain ⟨heq, hver⟩ := hashPassword_roundtrip salt password now o hp hsalt hn1 hn2
  cases Option.some.inj (hc.symm.trans heq)
  exact hver

/-- C2 witness: the amended agreement at the concrete salt length 8. -/
theorem c2_hash_verify_agreement_witness :
    validPassword "pw".data = true
      ∧ saltFromProvider (orDefault (some 8) 32) "0123456789abcdef".data
      ∧ hashPassword "0123456789abcdef".data 7 "pw".data { saltLength := some 8 }
          = some c2WitnessCred
      ∧ verifyPassword "pw".data c2WitnessCred = true :=
  ⟨by decide, ⟨by decide, by decide⟩, by decide,
   c2_hash_verify_agreement "pw".data "0123456789abcdef".data 7 { saltLength := some 8 }
     (by decide) ⟨by decide, by decide⟩ (by decide) (by decide) c2WitnessCred (by decide)⟩

/-- C3: the engine's preprocessing is not the standard byte-level padding the
specification describes: on "a" the word stream renders to bytes beginning
00 00 00 61 80 … instead of 61 80 00 …, so the 0x80 marker is not placed
immediately after the last message byte; moreover the length field is computed
from the UTF-16 unit count, which differs from the UTF-8 byte count on "é". -/
theorem c3_padding_diverges :
    paddedWords "a".data
        = [0x61, 0x80000000, 0, 0, 0, 0, 0, 0, 0, 0, 0, 0, 0, 0, 0, 8]
      ∧ specStandardPadding "a".data
          = [0x61, 0x80] ++ List.replicate 54 0 ++ [0, 0, 0, 0, 0, 0, 0, 8]
      ∧ wordsToBytesBE (paddedWords "a".data) ≠ specStandardPadding "a".data
      ∧ utf16Len "é".data * 8 ≠ (stringToBytes "é".data).length * 8 :=
  ⟨by decide, by decide, by decide, by decide⟩

/-- C4: `timeSafeCompare` computes the XOR of the byte lengths, OR-accumulates
bytewise XORs (with zero defaults) over max(len(a), len(b)) positions, and
returns whether the accumulator is zero — so it returns `true` exactly when
the two UTF-8 byte sequences are equal. -/
theorem c4_timeSafeCompare_eq_bytes (a b : List Char) :
    timeSafeCompare a b = (stringToBytes a == stringToBytes b) := by
  by_cases h : stringToBytes a = stringToBytes b
  · rw [(timeSafeCompare_eq_true_iff a b).mpr h, h, beq_self_eq_true]
  · have h1 : timeSafeCompare a b ≠ true :=
      fun ht => h ((timeSafeCompare_eq_true_iff a b).mp ht)
    have h2 : timeSafeCompare a b = false := by
      cases htsc : timeSafeCompare a b
      · rfl
      · exact absurd htsc h1
    rw [h2]
    exact (beq_eq_false_iff_ne.mpr h).symm

/-- C5: verification is total and fail-closed: for every password and every
stored text `verifyPassword` returns a boolean, and whenever the stored text
fails to decode as a credential, `verifyPassword` returns `false` and
`verifyPasswordSecure` reports `isValid = false` rather than raising. -/
theorem c5_verify_never_raises (password storedHash : List Char) :
    (verifyPassword password storedHash = true ∨ verifyPassword password storedHash = false)
      ∧ (validateStoredHashFormat storedHash = none →
          verifyPassword password storedHash = false
            ∧ (verifyPasswordSecure password storedHash).isValid = false) := by
  constructor
  · cases h : verifyPassword password storedHash
    · exact Or.inr rfl
    · exact Or.inl rfl
  · intro hbad
    constructor
    · unfold verifyPassword
      rw [hbad]
      cases hb : (!validPassword password) <;> simp [hb]
    · unfold verifyPasswordSecure
      rw [hbad]
      cases hb : (!validPassword password) <;> simp [hb]

/-- C5 witness: any password against text that is not a valid credential. -/
theorem c5_verify_never_raises_witness :
    validateStoredHashFormat "not-a-valid-credential".data = none
      ∧ verifyPassword "pw".data "not-a-valid-credential".data = false
      ∧ (verifyPasswordSecure "pw".data "not-a-valid-credential".data).isValid = false :=
  ⟨by decide,
   ((c5_verify_never_raises "pw".data "not-a-valid-credential".data).2 (by decide)).1,
   ((c5_verify_never_raises "pw".data "not-a-valid-credential".data).2 (by decide)).2⟩

/-- C6 counterexample: for the empty password the single-iteration digest of
password+salt equals the stored digest of a two-field credential whose salt is
within the configured bounds, yet `verifyPassword` returns `false`, because
`validatePassword` rejects the empty password. -/
theorem c6_counterexample :
    sha256 ([] ++ "saltsalt".data) = c6Digest
      ∧ utf16Len "saltsalt".data = 8
      ∧ verifyPassword [] ("saltsalt".data ++ ':' :: c6Digest) = false :=
  ⟨rfl, by decide, by decide⟩

/-- C6 (amended): a two-field credential `salt:digestHex` — colon-free salt of
8–128 UTF-16 units, nonempty hex digest — decodes successfully with no
metadata (implied iterations 1), and for every password accepted by
`validatePassword`, verification succeeds exactly when the single-iteration
digest of password+salt equals the stored digest. -/
theorem c6_legacy_two_field (password salt digest : List Char)
    (hp : validPassword password = true)
    (hsc : ':' ∉ salt) (hlen1 : 8 ≤ utf16Len salt) (hlen2 : utf16Len salt ≤ 128)
    (hdne : digest ≠ []) (hdhex : digest.all isHexDigit = true) :
    validateStoredHashFormat (salt ++ ':' :: digest) = some ⟨salt, digest, none⟩
      ∧ (verifyPassword password (salt ++ ':' :: digest) = true
          ↔ sha256 (password ++ salt) = digest) := by
  have hsne : salt ≠ [] := by
    intro h
    subst h
    simp [utf16Len] at hlen1
  have hdc : ':' ∉ digest := fun hmem =>
    hex_ne_colon ':' (List.all_eq_true.mp hdhex ':' hmem) rfl
  have hdecode := validateStored_two_fields salt digest hsc hdc hsne hdne hlen1 hlen2 hdhex
  refine ⟨hdecode, ?_, ?_⟩
  · intro hv
    simp only [verifyPassword,
      if_bool_false (!validPassword password) (by rw [hp]; rfl), hdecode] at hv
    have hv2 : timeSafeCompare (sha256 (password ++ salt)) digest = true := hv
    have hbytes := (timeSafeCompare_eq_true_iff _ _).mp hv2
    exact utf8_inj_of_ascii _ _
      (fun c hc => hexLower_ascii c (sha256_all_lower _ c hc)) hbytes
  · intro hd
    simp only [verifyPassword,
      if_bool_false (!validPassword password) (by rw [hp]; rfl), hdecode]
    show timeSafeCompare (sha256 (password ++ salt)) digest = true
    rw [hd]
    exact timeSafeCompare_self digest

/-- C6 witness: the amended equivalence at a concrete password and salt. -/
theorem c6_legacy_two_field_witness :
    validPassword "pw".data = true
      ∧ validateStoredHashFormat ("saltsalt".data ++ ':' :: c6WitnessDigest)
          = some ⟨"saltsalt".data, c6WitnessDigest, none⟩
      ∧ verifyPassword "pw".data ("saltsalt".data ++ ':' :: c6WitnessDigest) = true :=
  ⟨by decide,
   (c6_legacy_two_field "pw".data "saltsalt".data c6WitnessDigest (by decide) (by decide)
      (by decide) (by decide) (by decide) (by decide)).1,
   ((c6_legacy_two_field "pw".data "saltsalt".data c6WitnessDigest (by decide) (by decide)
      (by decide) (by decide) (by decide) (by decide)).2).mpr rfl⟩

/-- C7: `upgradePasswordHash` returns null whenever verification of the
password against the old credential fails, and otherwise returns exactly the
result of hashing the password with the new options; no new credential is ever
produced for a password that does not verify. -/
theorem c7_upgrade_guard (salt : List Char) (now : Nat)
    (password oldStoredHash : List Char) (newOptions : HashOptionsP) :
    ((verifyPasswordSecure password oldStoredHash).isValid = false →
        upgradePasswordHash salt now password oldStoredHash newOptions = some none)
      ∧ ((verifyPasswordSecure password oldStoredHash).isValid = true →
        upgradePasswordHash salt now password oldStoredHash newOptions
          = (hashPassword salt now password newOptions).map some) := by
  constructor
  · intro h
    simp [upgradePasswordHash, h]
  · intro h
    simp [upgradePasswordHash, h]

/-- C7 witness: the guard at a concrete failing verification. -/
theorem c7_upgrade_guard_witness :
    (verifyPasswordSecure "pw".data "bad".data).isValid = false
      ∧ upgradePasswordHash "0123456789abcdef".data 0 "pw".data "bad".data {} = some none :=
  ⟨by decide,
   (c7_upgrade_guard "0123456789abcdef".data 0 "pw".data "bad".data {}).1 (by decide)⟩

/-- C8: for every input the digest is exactly 64 lowercase hexadecimal
characters — never truncated or padded — and the function is deterministic,
with no dependence on process state. -/
theorem c8_digest_shape_deterministic (m : List Char) :
    (sha256 m).length = 64 ∧ (sha256 m).all isHexDigitLower = true ∧ sha256 m = sha256 m :=
  ⟨sha256_length m, List.all_eq_true.mpr (fun c hc => sha256_all_lower m c hc), rfl⟩

/-- C9: every `options.algorithm` value is routed through the switch default:
`hashPassword` computes the digest with the SHA-256 routine while recording the
requested algorithm name in the metadata, `hashPasswordWithOptions` likewise
computes its hash with SHA-256, and verification — which also recomputes
SHA-256 regardless of the stored name — accepts the credential. -/
theorem c9_algorithm_switch_default (alg : HashAlgorithm) (password salt : List Char)
    (now : Nat) (o : HashOptionsP) (halg : o.algorithm = some alg)
    (hp : validPassword password = true)
    (hsalt : saltFromProvider (orDefault o.saltLength 32) salt)
    (hn1 : 8 ≤ orDefault o.saltLength 32) (hn2 : orDefault o.saltLength 32 ≤ 64) :
    hashPassword salt now password o
        = some (salt ++ ':' :: (iterSha (sha256 (password ++ salt)) (orDefault o.iterations 1 - 1)
            ++ ':' :: stringifyMeta ⟨algName alg, orDefault o.iterations 1,
                orDefault o.keyLength 64, now⟩))
      ∧ (hashPasswordWithOptions salt password o).map PasswordHashResult.hash
          = some (iterSha (sha256 (match o.pepper with
              | some pepper => password ++ salt ++ pepper
              | none => password ++ salt)) (orDefault o.iterations 100000 - 1))
      ∧ verifyPassword password
          (salt ++ ':' :: (iterSha (sha256 (password ++ salt)) (orDefault o.iterations 1 - 1)
            ++ ':' :: stringifyMeta ⟨algName alg, orDefault o.iterations 1,
                orDefault o.keyLength 64, now⟩)) = true
      ∧ (verifyPasswordSecure password
          (salt ++ ':' :: (iterSha (sha256 (password ++ salt)) (orDefault o.iterations 1 - 1)
            ++ ':' :: stringifyMeta ⟨algName alg, orDefault o.iterations 1,
                orDefault o.keyLength 64, now⟩))).isValid = true := by
  obtain ⟨heq, hver⟩ := hashPassword_roundtrip salt password now o hp hsalt hn1 hn2
  simp only [halg, Option.getD_some] at heq hver
  refine ⟨heq, ?_, hver, ?_⟩
  · rw [hashPasswordWithOptions_eq salt password o hp hn1 (by omega)]
    rfl
  · rw [verifySecure_isValid]
    exact hver

/-- C9 witness: the switch-default behavior at `algorithm = sha512`. -/
theorem c9_algorithm_switch_default_witness :
    validPassword "pw".data = true
      ∧ saltFromProvider (orDefault (some 8) 32) "0123456789abcdef".data
      ∧ verifyPassword "pw".data
          ("0123456789abcdef".data ++ ':' ::
            (iterSha (sha256 ("pw".data ++ "0123456789abcdef".data)) 0
              ++ ':' :: stringifyMeta ⟨algName .sha512, 1, 64, 3⟩)) = true :=
  ⟨by decide, ⟨by decide, by decide⟩,
   (c9_algorithm_switch_default .sha512 "pw".data "0123456789abcdef".data 3
      { algorithm := some .sha512, saltLength := some 8 } rfl (by decide)
      ⟨by decide, by decide⟩ (by decide) (by decide)).2.2.1⟩

/-- C10: the two exported comparators are extensionally equal — the UTF-16
length pre-check short-circuit in `constantTimeCompare` never changes the
result of `timeSafeCompare`. -/
theorem c10_comparators_agree (a b : List Char) :
    constantTimeCompare a b = timeSafeCompare a b := by
  unfold constantTimeCompare
  by_cases h : utf16Len a = utf16Len b
  · rw [if_neg (fun hne => hne h)]
  · rw [if_pos h]
    cases htsc : timeSafeCompare a b
    · rfl
    · exfalso
      have hbytes := (timeSafeCompare_eq_true_iff a b).mp htsc
      have hw := congrArg (fun l => (l.map utf16WeightOfByte).sum) hbytes
      simp only at hw
      rw [stringToBytes_weight, stringToBytes_weight] at hw
      exact h hw

end Cryptonium
